import Mathlib

/-!
Verification development for the `tracer` repository (Rust).

The development shallowly embeds the three source files:

* `src/fifo.rs` — the per-thread Shared Trace Buffer (`AtomicTimestampsRing`
  with `try_push` / `try_pop` and the pure index predicates `can_push` /
  `can_pop`).  Machine integers are modelled as `Nat` with explicit masking
  (`&&&` / `% 256`) where the source wraps.
* `sparkles/src/global_storage.rs` — the Global Staging Store (`GlobalStorage`
  with `push_buf`, `try_take_buf`, `take_failed_pages`, the drop pass and the
  sender loop's socket writes) built on a byte ring (`ringbuf::LocalRb`).
* `sparkles-receiver/src/perfetto_format.rs` — the receiver's trace-event
  constructors.  The `f64` fields are modelled as exact rationals; where the
  value of an `f64` computation matters (the `CLEANUP_THRESHOLD` constant) the
  IEEE-754 binary64 rounding is modelled explicitly over `ℚ`.

The `fifo_cnt` module (`LockFreeIndexStore` / `LockIndexStore`) and the
`id_mapping` module (`IdStoreMap`) are not among the sources; the definitions
that depend on them are modelled from the spec and carry a doc comment saying
so.  All executions are single-threaded: stateful code is embedded as explicit
state passing.

Byte-level encoding helpers: `natLE k n` is the `k`-byte little-endian
encoding of `n` (the encoding of `n % 2^(8k)`, matching a `k`-byte machine
integer), `natBE` the big-endian variant, `leNat` / `beNat` the decoding
directions.
-/

def natLE : Nat → Nat → List Nat
  | 0, _ => []
  | k + 1, n => n % 256 :: natLE k (n / 256)

def leNat : List Nat → Nat
  | [] => 0
  | b :: rest => b + 256 * leNat rest

def natBE (k n : Nat) : List Nat := (natLE k n).reverse

def beNat (l : List Nat) : Nat := leNat l.reverse

/-- Constant `RINGBUF_IND_MASK` from `src/fifo.rs`. -/
def RINGBUF_IND_MASK : Nat := 255

/-- Constant `MAX_IN_PROGRESS_BYTES_WRITE` from `src/fifo.rs`. -/
def MAX_IN_PROGRESS_BYTES_WRITE : Nat := 80

/-- Predicate `can_pop` from `src/fifo.rs`:
`(w + index_mask + 1 - r) & index_mask >= n as usize`. -/
def can_pop (r w n index_mask : Nat) : Bool :=
  decide ((w + index_mask + 1 - r) &&& index_mask ≥ n)

/-- Predicate `can_push` from `src/fifo.rs`:
`(index_mask + r - w) & index_mask >= n as usize`. -/
def can_push (r w n index_mask : Nat) : Bool :=
  decide ((index_mask + r - w) &&& index_mask ≥ n)

/-- Single-threaded state of an `AtomicTimestampsRing`: the backing byte
array (`buf`, length 256), the write index and bytes-in-progress counter held
by the `LockFreeIndexStore`, and the read index held by the
`LockIndexStore`. -/
structure STB where
  buf : List Nat
  write : Nat
  pending : Nat
  read : Nat
deriving DecidableEq

/-- The write loop of `try_push`: byte `i` of `v` is stored at cell
`(to_write_index + i) & RINGBUF_IND_MASK`. -/
def writeBytes : List Nat → Nat → List Nat → List Nat
  | buf, _, [] => buf
  | buf, idx, byte :: rest => writeBytes (buf.set (idx &&& RINGBUF_IND_MASK) byte) (idx + 1) rest

/-- Function `try_push` from `src/fifo.rs`, single-threaded.  `n` is
`v.len() as u8`, i.e. the length truncated to 8 bits.  The reservation step
`LockFreeIndexStore.increment_in_progress` and the commit step
`increment_done` live in the `fifo_cnt` module, which is not among the
sources; they are modelled from the spec: the reservation atomically advances
the write index by `n` and adds `n` to the in-progress counter, and succeeds
exactly when the caller's `error_condition` (here `!can_push`) is false and
`W_pending + n ≤ MAX_IN_PROGRESS` holds; the commit subtracts `n` from the
in-progress counter. -/
def try_push (s : STB) (v : List Nat) : Option Unit × STB :=
  let n := v.length % 256
  if can_push s.read s.write n RINGBUF_IND_MASK ∧
      s.pending + n ≤ MAX_IN_PROGRESS_BYTES_WRITE then
    let toWrite := s.write
    let buf := writeBytes s.buf toWrite v
    (some (), { s with
      buf := buf
      write := (s.write + n) % 256
      pending := s.pending + n - n })
  else
    (none, s)

/-- Function `try_pop` from `src/fifo.rs`, single-threaded, with the
const-generic `N` as an explicit argument.  The read-side
`LockIndexStore.increment_start` / `increment_done` are not among the
sources; they are modelled from the spec: `increment_start` hands out the
current read index when `error_condition` (here `!can_pop`) is false, and
`increment_done` advances the read index by `N`. -/
def try_pop (s : STB) (n : Nat) : Option (List Nat) × STB :=
  if can_pop s.read s.write n RINGBUF_IND_MASK then
    let toRead := s.read
    let popped := (List.range n).map fun i => s.buf.getD ((toRead + i) &&& RINGBUF_IND_MASK) 0
    (some popped, { s with read := (s.read + n) % 256 })
  else
    (none, s)

/-- A fresh ring as built by `AtomicTimestampsRing::new` (contents arbitrary;
zeros here), with both index stores at zero. -/
def stb0 : STB := ⟨List.replicate 256 0, 0, 0, 0⟩

/-- Modelled from the spec: the event-descriptor kind of the `id_store`
(`{Range, Point}`), from the missing `id_mapping` module. -/
inductive EventKind
  | range
  | point
deriving DecidableEq

/-- Struct `LocalPacketHeader` from `sparkles/src/global_storage.rs`.  The
`id_store : IdStoreMap` field is modelled from the spec as a deterministic
mapping from a small integer event id to a descriptor `{name, kind}`. -/
structure LocalPacketHeader where
  thread_name : List Nat
  thread_id : Nat
  initial_timestamp : Nat
  end_timestamp : Nat
  id_store : List (Nat × List Nat × EventKind)
  buf_length : Nat
deriving DecidableEq

/-- Modelled from the spec: serialisation of an `EventKind` (a fieldless
enum tag; `bincode` writes a fixed-width little-endian variant index). -/
def serKind : EventKind → List Nat
  | .range => natLE 4 0
  | .point => natLE 4 1

/-- Modelled from the spec: serialisation of one `id_store` entry
(fixed-width integers, length-prefixed text, little-endian). -/
def serEntry (e : Nat × List Nat × EventKind) : List Nat :=
  natLE 8 e.1 ++ (natLE 8 e.2.1.length ++ e.2.1) ++ serKind e.2.2

/-- Modelled from the spec: serialisation of the `id_store` map
(length-prefixed sequence of entries in deterministic order). -/
def serIdStore (st : List (Nat × List Nat × EventKind)) : List Nat :=
  natLE 8 st.length ++ st.flatMap serEntry

/-- Modelled from the spec: `bincode::serialize` of a `LocalPacketHeader` —
a stable binary encoding with length-prefixed strings and fixed-width
little-endian integers, field by field in declaration order. -/
def serializeHeader (h : LocalPacketHeader) : List Nat :=
  natLE 8 h.thread_name.length ++ h.thread_name ++ natLE 8 h.thread_id ++
    natLE 8 h.initial_timestamp ++ natLE 8 h.end_timestamp ++
    serIdStore h.id_store ++ natLE 8 h.buf_length

/-- Reads exactly `n` bytes from the front of `l` (the `Read::read_exact`
discipline of the deserialiser): fails if fewer are available. -/
def takeExact (n : Nat) (l : List Nat) : Option (List Nat × List Nat) :=
  if n ≤ l.length then some (l.take n, l.drop n) else none

/-- Modelled from the spec: deserialisation of a fixed-width 8-byte
little-endian integer. -/
def parseU64 (l : List Nat) : Option (Nat × List Nat) :=
  (takeExact 8 l).bind fun p => some (leNat p.1, p.2)

/-- Modelled from the spec: deserialisation of a length-prefixed byte
string. -/
def parseLenBytes (l : List Nat) : Option (List Nat × List Nat) :=
  (parseU64 l).bind fun p => takeExact p.1 p.2

/-- Modelled from the spec: deserialisation of an `EventKind` tag; an
out-of-range variant index is an error. -/
def parseKind (l : List Nat) : Option (EventKind × List Nat) :=
  (takeExact 4 l).bind fun p =>
    match leNat p.1 with
    | 0 => some (EventKind.range, p.2)
    | 1 => some (EventKind.point, p.2)
    | _ => none

/-- Modelled from the spec: deserialisation of one `id_store` entry. -/
def parseEntry (l : List Nat) : Option ((Nat × List Nat × EventKind) × List Nat) :=
  (parseU64 l).bind fun p1 =>
  (parseLenBytes p1.2).bind fun p2 =>
  (parseKind p2.2).bind fun p3 =>
  some ((p1.1, p2.1, p3.1), p3.2)

/-- Modelled from the spec: deserialisation of `n` consecutive `id_store`
entries. -/
def parseEntries : Nat → List Nat → Option (List (Nat × List Nat × EventKind) × List Nat)
  | 0, l => some ([], l)
  | n + 1, l =>
    (parseEntry l).bind fun p =>
    (parseEntries n p.2).bind fun q =>
    some (p.1 :: q.1, q.2)

/-- Modelled from the spec: deserialisation of the `id_store` map. -/
def parseIdStore (l : List Nat) : Option (List (Nat × List Nat × EventKind) × List Nat) :=
  (parseU64 l).bind fun p => parseEntries p.1 p.2

/-- Modelled from the spec: `bincode::deserialize::<LocalPacketHeader>` —
the inverse direction of `serializeHeader`, field by field. -/
def deserializeHeader (l : List Nat) : Option LocalPacketHeader :=
  (parseLenBytes l).bind fun p1 =>
  (parseU64 p1.2).bind fun p2 =>
  (parseU64 p2.2).bind fun p3 =>
  (parseU64 p3.2).bind fun p4 =>
  (parseIdStore p4.2).bind fun p5 =>
  (parseU64 p5.2).bind fun p6 =>
  some ⟨p1.1, p2.1, p3.1, p4.1, p5.1, p6.1⟩

/-- Well-formedness of one `id_store` entry: the numeric fields fit in the
machine words they are serialised into. -/
def EntryWF (e : Nat × List Nat × EventKind) : Prop :=
  e.1 < 2 ^ 64 ∧ e.2.1.length < 2 ^ 64

/-- Well-formedness of a header: every serialised numeric field fits in a
`u64`.  Always true of headers produced by the program. -/
def HeaderWF (h : LocalPacketHeader) : Prop :=
  h.thread_name.length < 2 ^ 64 ∧ h.thread_id < 2 ^ 64 ∧
  h.initial_timestamp < 2 ^ 64 ∧ h.end_timestamp < 2 ^ 64 ∧
  h.buf_length < 2 ^ 64 ∧ h.id_store.length < 2 ^ 64 ∧
  (∀ e ∈ h.id_store, EntryWF e) ∧ (serializeHeader h).length < 2 ^ 64

instance (h : LocalPacketHeader) : Decidable (HeaderWF h) := by
  unfold HeaderWF EntryWF
  infer_instance

/-- Round a positive rational to the nearest IEEE-754 binary64 value,
modelled exactly over `ℚ`: scale the input into a 53-bit significand range
and round that significand to an integer.  `round` resolves exact ties
half-up rather than to-even; the computations in this development never hit
a tie.  Nonpositive inputs and overflow do not occur here and are not
modelled. -/
def roundF64 (x : ℚ) : ℚ :=
  if x ≤ 0 then 0
  else
    let e : ℤ := Int.log 2 x
    let s : ℚ := 2 ^ (52 - e)
    ((round (x * s) : ℤ) : ℚ) / s

/-- Constant `GLOBAL_CAPACITY` from `sparkles/src/global_storage.rs`. -/
def GLOBAL_CAPACITY : Nat := 500000000

/-- Constant `CLEANUP_THRESHOLD = (GLOBAL_CAPACITY as f64 * 0.9) as usize`
from `sparkles/src/global_storage.rs`, with the `f64` arithmetic modelled
exactly over `ℚ`: the cast of `GLOBAL_CAPACITY` to `f64` and the literal
`0.9` are rounded to binary64, the product is rounded to binary64, and the
`as usize` cast truncates toward zero. -/
def CLEANUP_THRESHOLD : Nat :=
  (⌊roundF64 (roundF64 ((GLOBAL_CAPACITY : ℚ)) * roundF64 (9 / 10))⌋).toNat

/-- Constant `CLEANUP_BOTTOM_THRESHOLD` from `sparkles/src/global_storage.rs`. -/
def CLEANUP_BOTTOM_THRESHOLD : Nat := 350000000

/-- Constant `FLUSH_THRESHOLD` from `sparkles/src/global_storage.rs`. -/
def FLUSH_THRESHOLD : Nat := 5000000

/-- Model of `ringbuf::LocalRb<Heap<u8>>`: a byte FIFO of capacity `cap`
whose logical contents `data` begin at physical index `read` of the backing
array.  `occupied_len()` is `data.length`. -/
structure RingBuf where
  cap : Nat
  read : Nat
  data : List Nat
deriving DecidableEq

/-- `Producer::push_slice`: appends as many bytes as fit in the free space
and silently drops the rest. -/
def RingBuf.pushSlice (rb : RingBuf) (bs : List Nat) : RingBuf :=
  { rb with data := rb.data ++ bs.take (rb.cap - rb.data.length) }

/-- `Read::read_exact` on the consumer side: removes exactly `n` bytes from
the front; fails (the caller `unwrap`s) if fewer are available. -/
def RingBuf.readExact (rb : RingBuf) (n : Nat) : Option (List Nat × RingBuf) :=
  if n ≤ rb.data.length then
    some (rb.data.take n,
      { rb with data := rb.data.drop n, read := (rb.read + n) % rb.cap })
  else none

/-- `Consumer::skip`: removes `min n occupied` bytes from the front. -/
def RingBuf.skip (rb : RingBuf) (n : Nat) : RingBuf :=
  { rb with data := rb.data.drop n, read := (rb.read + min n rb.data.length) % rb.cap }

/-- `Observer::as_slices`: the two physical slices of the occupied region;
the first runs from index `read` to the end of the backing array, the second
wraps around to the start. -/
def RingBuf.asSlices (rb : RingBuf) : List Nat × List Nat :=
  (rb.data.take (rb.cap - rb.read), rb.data.drop (rb.cap - rb.read))

/-- `Consumer::clear`: drops all contents (the read cursor catches up with
the write cursor). -/
def RingBuf.clear (rb : RingBuf) : RingBuf :=
  { rb with data := [], read := (rb.read + rb.data.length) % rb.cap }

/-- Struct `GlobalStorage` from `sparkles/src/global_storage.rs` (the
`sending_thread` join handle carries no data and is omitted). -/
structure GlobalStorage where
  inner : RingBuf
  skipped_msr_pages_headers : List LocalPacketHeader
deriving DecidableEq

/-- The drop-pass loop of `push_buf`
(`while occupied_len() > CLEANUP_BOTTOM_THRESHOLD`): each iteration pops one
whole frame — 8 bytes of big-endian `header_len`, then `header_len` header
bytes (deserialised), then `header.buf_length` skipped body bytes — and
appends the deserialised header to the skipped list.  `fuel` bounds the
iteration count (the Rust loop is unbounded; any fuel at least the number of
frames in the ring suffices, see `cleanupLoop_frames`); `none` models an
`unwrap` panic in `read_exact` or `deserialize`. -/
def cleanupLoop : Nat → RingBuf → List LocalPacketHeader →
    Option (RingBuf × List LocalPacketHeader)
  | 0, rb, acc =>
    if rb.data.length > CLEANUP_BOTTOM_THRESHOLD then none else some (rb, acc)
  | fuel + 1, rb, acc =>
    if rb.data.length > CLEANUP_BOTTOM_THRESHOLD then
      (rb.readExact 8).bind fun p1 =>
      (p1.2.readExact (beNat p1.1)).bind fun p2 =>
      (deserializeHeader p2.1).bind fun header =>
      cleanupLoop fuel (p2.2.skip header.buf_length) (acc ++ [header])
    else some (rb, acc)

/-- Method `GlobalStorage::push_buf`: serialise the header, push the frame
(8-byte big-endian `header_len`, the header bytes, the body) onto the ring,
then, if the occupancy exceeds `CLEANUP_THRESHOLD`, run the drop pass until
it is at most `CLEANUP_BOTTOM_THRESHOLD`.  `none` models a panic inside the
drop pass. -/
def GlobalStorage.push_buf (g : GlobalStorage) (header : LocalPacketHeader)
    (buf : List Nat) : Option GlobalStorage :=
  let hser := serializeHeader header
  let header_len := natBE 8 hser.length
  let inner := ((g.inner.pushSlice header_len).pushSlice hser).pushSlice buf
  if inner.data.length > CLEANUP_THRESHOLD then
    (cleanupLoop (inner.data.length + 1) inner g.skipped_msr_pages_headers).bind
      fun p => some ⟨p.1, p.2⟩
  else
    some ⟨inner, g.skipped_msr_pages_headers⟩

/-- Method `GlobalStorage::try_take_buf`: if the occupancy exceeds the
threshold (`0` when `take_everything`, else `FLUSH_THRESHOLD`), snapshot the
two physical slices, clear the ring and return them; otherwise `None`. -/
def GlobalStorage.try_take_buf (g : GlobalStorage) (take_everything : Bool) :
    Option (List Nat × List Nat) × GlobalStorage :=
  let threshold := if take_everything then 0 else FLUSH_THRESHOLD
  if g.inner.data.length > threshold then
    let slices := g.inner.asSlices
    (some slices, { g with inner := g.inner.clear })
  else
    (none, g)

/-- Method `GlobalStorage::take_failed_pages` (`mem::take` of the skipped
list). -/
def GlobalStorage.take_failed_pages (g : GlobalStorage) :
    List LocalPacketHeader × GlobalStorage :=
  (g.skipped_msr_pages_headers, { g with skipped_msr_pages_headers := [] })

/-- One iteration of the sender loop's socket writes (the body of the
`thread::spawn` closure in `GlobalStorage::default`): the byte stream
produced by the successive `con.write_all` calls, in program order, given
the slices taken from the store and the failed-page headers. -/
def senderIter (slices : Option (List Nat × List Nat))
    (failed_pages : List LocalPacketHeader) : List Nat :=
  let out : List Nat := []
  let out := match slices with
    | some s =>
      let out := out ++ [0x01]
      let total_len := s.1.length + s.2.length
      let out := out ++ natBE 8 total_len
      let out := out ++ s.1
      out ++ s.2
    | none => out
  if failed_pages.length > 0 then
    failed_pages.foldl (fun acc header =>
      let hser := serializeHeader header
      let acc := acc ++ [0x02]
      let acc := acc ++ natBE 8 hser.length
      acc ++ hser) out
  else out

/-- The byte image of one frame `(header, body)` in the staging ring. -/
def frameBytes (f : LocalPacketHeader × List Nat) : List Nat :=
  natBE 8 (serializeHeader f.1).length ++ serializeHeader f.1 ++ f.2

/-- The byte image of a sequence of frames. -/
def framesBytes (fs : List (LocalPacketHeader × List Nat)) : List Nat :=
  fs.flatMap frameBytes

/-- A well-formed frame: the body has exactly the length announced in the
header, and the header is well formed (so it round-trips). -/
def FrameWF (f : LocalPacketHeader × List Nat) : Prop :=
  f.2.length = f.1.buf_length ∧ HeaderWF f.1

/-- A header announcing a 460 MB body, used to exercise the drop pass. -/
def hdr0 : LocalPacketHeader := ⟨[], 0, 0, 0, [], 460000000⟩

/-- An empty staging store at the source's capacity. -/
def gssEmpty : GlobalStorage := ⟨⟨GLOBAL_CAPACITY, 0, []⟩, []⟩

/-- A small header exercising every field, for the C5 witness. -/
def hdrSmall : LocalPacketHeader :=
  ⟨[109, 97, 105, 110], 7, 1000000, 1500000, [(1, [119, 111, 114, 107], EventKind.range)], 4⟩

/-- A store holding three bytes, for the C4 witness. -/
def gssSmall : GlobalStorage := ⟨⟨500000000, 2, [1, 2, 3]⟩, []⟩

/-- Struct `RangeEvent` from `perfetto_format.rs`.  The `f64` fields `ts`
and `dur` are modelled as exact rationals: the claim compares the code's
`(x as f64) / 1_000.0` with the spec's `x / 1000` symbolically, so no
binary64 rounding is decided here. -/
structure RangeEvent where
  name : String
  cat : String
  ph : String
  ts : ℚ
  dur : ℚ
  tid : Nat
deriving DecidableEq

/-- Constructor `RangeEvent::new` from `perfetto_format.rs`. -/
def RangeEvent.new (name : String) (event_id : Nat) (timestamp : Nat)
    (duration : Nat) : RangeEvent :=
  { name := name
    cat := "Range"
    ph := "X"
    ts := (timestamp : ℚ) / 1000
    dur := (duration : ℚ) / 1000
    tid := event_id }

/-- Struct `PointEvent` from `perfetto_format.rs`. -/
structure PointEvent where
  name : String
  cat : String
  ph : String
  ts : ℚ
  tid : Nat
deriving DecidableEq

/-- Constructor `PointEvent::new` from `perfetto_format.rs`. -/
def PointEvent.new (name : String) (event_id : Nat) (timestamp : Nat) : PointEvent :=
  { name := name
    cat := "Point"
    ph := "i"
    ts := (timestamp : ℚ) / 1000
    tid := event_id }

/-! ## Theorems -/

theorem natLE_length (k : Nat) : ∀ n, (natLE k n).length = k := by
  induction k with
  | zero => intro n; rfl
  | succ k ih => intro n; simp [natLE, ih]

theorem natBE_length (k n : Nat) : (natBE k n).length = k := by
  simp [natBE, natLE_length]

theorem leNat_natLE (k : Nat) : ∀ n, n < 256 ^ k → leNat (natLE k n) = n := by
  induction k with
  | zero => intro n h; simp [Nat.pow_zero] at h; simp [natLE, leNat, h]
  | succ k ih =>
    intro n h
    have hdiv : n / 256 < 256 ^ k := by
      rw [Nat.div_lt_iff_lt_mul (by norm_num)]
      calc n < 256 ^ (k + 1) := h
        _ = 256 ^ k * 256 := by ring
    simp [natLE, leNat, ih (n / 256) hdiv]
    omega

theorem beNat_natBE (k n : Nat) (h : n < 256 ^ k) : beNat (natBE k n) = n := by
  simp [beNat, natBE, leNat_natLE k n h]

theorem land255_eq_mod (m : Nat) : m &&& 255 = m % 256 := by
  have h := Nat.and_pow_two_sub_one_eq_mod m 8
  norm_num at h
  exact h

theorem landMask_eq_mod (m : Nat) : m &&& RINGBUF_IND_MASK = m % 256 :=
  land255_eq_mod m

theorem writeBytes_length (v : List Nat) : ∀ (buf : List Nat) (w : Nat),
    (writeBytes buf w v).length = buf.length := by
  induction v with
  | nil => intro buf w; rfl
  | cons b rest ih => intro buf w; simp [writeBytes, ih]

theorem writeBytes_getD_untouched (v : List Nat) : ∀ (buf : List Nat) (w p : Nat),
    (∀ j, j < v.length → (w + j) % 256 ≠ p) →
    (writeBytes buf w v).getD p 0 = buf.getD p 0 := by
  induction v with
  | nil => intro buf w p _; rfl
  | cons b rest ih =>
    intro buf w p hp
    show (writeBytes (buf.set (w &&& RINGBUF_IND_MASK) b) (w + 1) rest).getD p 0 = buf.getD p 0
    rw [ih]
    · have hne : w % 256 ≠ p := by
        have := hp 0 (by simp)
        simpa using this
      rw [show w &&& RINGBUF_IND_MASK = w % 256 from land255_eq_mod w]
      simp [List.getD_eq_getElem?_getD, List.getElem?_set_ne hne]
    · intro j hj
      have := hp (j + 1) (by simp; omega)
      omega

theorem writeBytes_getD (v : List Nat) : ∀ (buf : List Nat) (w i : Nat),
    buf.length = 256 → v.length ≤ 256 → i < v.length →
    (writeBytes buf w v).getD ((w + i) % 256) 0 = v.getD i 0 := by
  induction v with
  | nil => intro buf w i _ _ hi; exact absurd hi (by simp)
  | cons b rest ih =>
    intro buf w i hbuf hlen hi
    cases i with
    | zero =>
      show (writeBytes (buf.set (w &&& RINGBUF_IND_MASK) b) (w + 1) rest).getD ((w + 0) % 256) 0 = b
      rw [writeBytes_getD_untouched]
      · rw [show w &&& RINGBUF_IND_MASK = w % 256 from land255_eq_mod w]
        have hlt : w % 256 < buf.length := by
          rw [hbuf]; exact Nat.mod_lt _ (by norm_num)
        have harg : (w + 0) % 256 = w % 256 := by omega
        rw [harg]
        simp [List.getD_eq_getElem?_getD, List.getElem?_set_self hlt]
      · intro j hj
        have hrest : rest.length ≤ 255 := by simp at hlen; omega
        omega
    | succ i' =>
      show (writeBytes (buf.set (w &&& RINGBUF_IND_MASK) b) (w + 1) rest).getD
          ((w + (i' + 1)) % 256) 0 = rest.getD i' 0
      have harg : w + (i' + 1) = (w + 1) + i' := by omega
      rw [harg]
      exact ih (buf.set (w &&& RINGBUF_IND_MASK) b) (w + 1) i'
        (by simp [hbuf]) (by simp at hlen; omega) (by simp at hi; omega)

/-- C2 counterexample: at `r = 0`, `w = 3`, `n = 1` the claim's parenthetical
characterisation `(r − w − 1) mod 4 ≥ n − 1` holds (it evaluates to
`(−4) mod 4 = 0 ≥ 0`) while `can_push 0 3 1 3` is `false` (in agreement with
the main formula `(3 + r − w) mod 4 = 0 ≥ 1`, which fails).  The two
characterisations the claim calls equivalent disagree whenever
`(r − w − 1) mod 4 = n − 1`. -/
theorem c2_counterexample :
    can_push 0 3 1 3 = false ∧
    ((0 : Int) - (3 : Int) - 1) % 4 ≥ (1 : Int) - 1 ∧
    ¬ (3 + (0 : Int) - (3 : Int)) % 4 ≥ (1 : Int) := by
  refine ⟨by decide, by decide, by decide⟩

/-- C2 (amended): for `mask = 3` and every `n ∈ {1,2,3}` and `r, w ∈ [0,4)`,
`can_pop(r, w, n, 3)` is true iff `(w − r) mod 4 ≥ n`, and
`can_push(r, w, n, 3)` is true iff `(3 + r − w) mod 4 ≥ n`, exactly matching
the spec's truth tables.  The parenthetical variant
`(r − w − 1) mod 4 ≥ n − 1` of the claim is dropped: it is not equivalent
(see the counterexample). -/
theorem c2_truth_tables (r w n : Nat) (hr : r < 4) (hw : w < 4)
    (hn : n = 1 ∨ n = 2 ∨ n = 3) :
    (can_pop r w n 3 = true ↔ ((w : Int) - (r : Int)) % 4 ≥ (n : Int)) ∧
    (can_push r w n 3 = true ↔ (3 + (r : Int) - (w : Int)) % 4 ≥ (n : Int)) := by
  rcases hn with h | h | h <;> subst h <;>
    interval_cases r <;> interval_cases w <;> decide

/-- Witness for C2 at `r = 2`, `w = 1`, `n = 3`. -/
theorem c2_truth_tables_witness :
    (can_pop 2 1 3 3 = true ↔ (((1 : Nat) : Int) - ((2 : Nat) : Int)) % 4 ≥ ((3 : Nat) : Int)) ∧
    (can_push 2 1 3 3 = true ↔ (3 + ((2 : Nat) : Int) - ((1 : Nat) : Int)) % 4 ≥ ((3 : Nat) : Int)) :=
  c2_truth_tables 2 1 3 (by norm_num) (by norm_num) (by norm_num)

/-- C6: a push of more than `MAX_IN_PROGRESS_BYTES_WRITE = 80` (but at most
255) bytes always returns `Full` (`None`) and leaves the buffer and both
index stores unchanged, whatever the current state. -/
theorem c6_oversize_full (v : List Nat) (s : STB)
    (h1 : MAX_IN_PROGRESS_BYTES_WRITE < v.length) (h2 : v.length ≤ 255) :
    try_push s v = (none, s) := by
  have hn : v.length % 256 = v.length := Nat.mod_eq_of_lt (by omega)
  have hcond : ¬(can_push s.read s.write (v.length % 256) RINGBUF_IND_MASK = true ∧
      s.pending + v.length % 256 ≤ MAX_IN_PROGRESS_BYTES_WRITE) := by
    rintro ⟨-, hle⟩
    rw [hn] at hle
    omega
  simp only [try_push]
  rw [if_neg hcond]

/-- Witness for C6: an 81-byte push into a fresh ring fails. -/
theorem c6_oversize_full_witness :
    try_push stb0 (List.replicate 81 1) = (none, stb0) :=
  c6_oversize_full (List.replicate 81 1) stb0
    (by simp [MAX_IN_PROGRESS_BYTES_WRITE]) (by simp)

/-- C1 counterexample: for `v = replicate 81 1` (so `0 < |v| ≤ 255`) and a
fresh ring, `can_push(read_index, write_index, |v|, mask)` holds at the time
of the call and yet `try_push(v)` fails, because the reservation also
requires `W_pending + n ≤ MAX_IN_PROGRESS (= 80)`. -/
theorem c1_roundtrip_counterexample :
    can_push stb0.read stb0.write (List.replicate 81 1).length RINGBUF_IND_MASK = true ∧
    (try_push stb0 (List.replicate 81 1)).1 = none := by
  constructor
  · decide
  · decide

/-- C1 (amended): for every byte sequence `v` with `0 < |v| ≤ 80`
(`MAX_IN_PROGRESS`, rather than 255), from any quiescent empty ring
(`read = write`, no pending bytes) — a state in which `can_push` holds —
`try_push(v)` succeeds and a subsequent `try_pop<|v|>()` returns exactly the
bytes of `v` in order. -/
theorem c1_roundtrip_amended (v : List Nat) (s : STB)
    (hbuf : s.buf.length = 256) (hw : s.write < 256) (hempty : s.read = s.write)
    (hpend : s.pending = 0) (hpos : 0 < v.length) (hlen : v.length ≤ 80) :
    (try_push s v).1 = some () ∧
    (try_pop (try_push s v).2 v.length).1 = some v := by
  have hn : v.length % 256 = v.length := Nat.mod_eq_of_lt (by omega)
  have hcp : can_push s.read s.write (v.length % 256) RINGBUF_IND_MASK = true := by
    unfold can_push RINGBUF_IND_MASK
    rw [hempty, hn]
    simp only [decide_eq_true_eq]
    rw [land255_eq_mod]
    omega
  have hcond : can_push s.read s.write (v.length % 256) RINGBUF_IND_MASK = true ∧
      s.pending + v.length % 256 ≤ MAX_IN_PROGRESS_BYTES_WRITE := by
    refine ⟨hcp, ?_⟩
    rw [hn, hpend]
    unfold MAX_IN_PROGRESS_BYTES_WRITE
    omega
  have hpush : try_push s v = (some (), { s with
      buf := writeBytes s.buf s.write v
      write := (s.write + v.length % 256) % 256
      pending := s.pending + v.length % 256 - v.length % 256 }) := by
    simp only [try_push]
    rw [if_pos hcond]
  refine ⟨by rw [hpush], ?_⟩
  rw [hpush]
  have hcpop : can_pop s.read ((s.write + v.length % 256) % 256) v.length
      RINGBUF_IND_MASK = true := by
    unfold can_pop RINGBUF_IND_MASK
    rw [hempty, hn]
    simp only [decide_eq_true_eq]
    rw [land255_eq_mod]
    omega
  simp only [try_pop]
  rw [if_pos hcpop]
  simp only [Option.some.injEq]
  apply List.ext_getElem
  · simp
  · intro i h1 h2
    simp only [List.getElem_map, List.getElem_range]
    rw [landMask_eq_mod, hempty]
    have hwb := writeBytes_getD v s.buf s.write i hbuf (by omega) h2
    rw [hwb]
    rw [List.getD_eq_getElem?_getD, List.getElem?_eq_getElem h2]
    rfl

/-- Witness for C1 (amended) at `v = [5]` and a fresh ring. -/
theorem c1_roundtrip_amended_witness :
    (try_push stb0 [5]).1 = some () ∧
    (try_pop (try_push stb0 [5]).2 1).1 = some [5] :=
  c1_roundtrip_amended [5] stb0 (by simp only [stb0, List.length_replicate])
    (by norm_num [stb0]) rfl rfl (by simp) (by simp)

/-- C9: `try_push` does not enforce `|bytes| ≤ 255`: the reserved/committed
length is `|v| mod 256` (`v.len() as u8`) while the write loop stores all
`|v|` bytes.  For an input of exactly 256 bytes the reservation (with
`n = 0`) succeeds whenever `W_pending ≤ 80`, `try_push` returns `Some` while
advancing the write index by 0, and all 256 bytes have been written into the
ring. -/
theorem c9_length_truncation (v : List Nat) (s : STB) (hv : v.length = 256)
    (hbuf : s.buf.length = 256) (hw : s.write < 256)
    (hpend : s.pending ≤ MAX_IN_PROGRESS_BYTES_WRITE) :
    (try_push s v).1 = some () ∧
    (try_push s v).2.write = s.write ∧
    (try_push s v).2.pending = s.pending ∧
    ∀ i, i < 256 → (try_push s v).2.buf.getD ((s.write + i) % 256) 0 = v.getD i 0 := by
  have hn : v.length % 256 = 0 := by rw [hv]
  have hcond : can_push s.read s.write (v.length % 256) RINGBUF_IND_MASK = true ∧
      s.pending + v.length % 256 ≤ MAX_IN_PROGRESS_BYTES_WRITE := by
    constructor
    · unfold can_push
      rw [hn]
      simp
    · rw [hn]
      omega
  have hpush : try_push s v = (some (), { s with
      buf := writeBytes s.buf s.write v
      write := (s.write + v.length % 256) % 256
      pending := s.pending + v.length % 256 - v.length % 256 }) := by
    simp only [try_push]
    rw [if_pos hcond]
  rw [hpush]
  refine ⟨rfl, ?_, ?_, ?_⟩
  · show (s.write + v.length % 256) % 256 = s.write
    rw [hn]
    omega
  · show s.pending + v.length % 256 - v.length % 256 = s.pending
    omega
  · intro i hi
    show (writeBytes s.buf s.write v).getD ((s.write + i) % 256) 0 = v.getD i 0
    exact writeBytes_getD v s.buf s.write i hbuf (by omega) (by omega)

/-- Witness for C9: pushing 256 bytes into a fresh ring. -/
theorem c9_length_truncation_witness :
    (try_push stb0 (List.replicate 256 9)).1 = some () ∧
    (try_push stb0 (List.replicate 256 9)).2.write = stb0.write ∧
    (try_push stb0 (List.replicate 256 9)).2.pending = stb0.pending ∧
    ∀ i, i < 256 →
      (try_push stb0 (List.replicate 256 9)).2.buf.getD ((stb0.write + i) % 256) 0
        = (List.replicate 256 9).getD i 0 :=
  c9_length_truncation (List.replicate 256 9) stb0 (by simp only [List.length_replicate])
    (by simp only [stb0, List.length_replicate])
    (by norm_num [stb0]) (by norm_num [stb0, MAX_IN_PROGRESS_BYTES_WRITE])

theorem takeExact_append (l r : List Nat) (n : Nat) (h : l.length = n) :
    takeExact n (l ++ r) = some (l, r) := by
  subst h
  unfold takeExact
  rw [if_pos (by simp)]
  rw [List.take_left, List.drop_left]

theorem pow_256_8 : (256 : Nat) ^ 8 = 2 ^ 64 := by norm_num

theorem parseU64_append (n : Nat) (r : List Nat) (h : n < 2 ^ 64) :
    parseU64 (natLE 8 n ++ r) = some (n, r) := by
  unfold parseU64
  rw [takeExact_append (natLE 8 n) r 8 (natLE_length 8 n)]
  rw [Option.some_bind]
  rw [leNat_natLE 8 n (by rw [pow_256_8]; exact h)]

theorem parseLenBytes_append (bs tail : List Nat) (h : bs.length < 2 ^ 64) :
    parseLenBytes (natLE 8 bs.length ++ (bs ++ tail)) = some (bs, tail) := by
  unfold parseLenBytes
  rw [parseU64_append bs.length (bs ++ tail) h]
  rw [Option.some_bind]
  exact takeExact_append bs tail bs.length rfl

theorem parseKind_serKind (k : EventKind) (r : List Nat) :
    parseKind (serKind k ++ r) = some (k, r) := by
  cases k <;>
    (unfold parseKind serKind
     rw [takeExact_append _ r 4 (natLE_length 4 _)]
     rw [Option.some_bind]
     rw [leNat_natLE 4 _ (by norm_num)])

theorem parseEntry_serEntry (e : Nat × List Nat × EventKind) (r : List Nat)
    (he : EntryWF e) :
    parseEntry (serEntry e ++ r) = some (e, r) := by
  obtain ⟨id, name, k⟩ := e
  obtain ⟨h1, h2⟩ := he
  unfold parseEntry serEntry
  simp only [List.append_assoc]
  rw [parseU64_append id _ h1]
  rw [Option.some_bind]
  rw [parseLenBytes_append name _ h2]
  rw [Option.some_bind]
  rw [parseKind_serKind k r]
  rw [Option.some_bind]

theorem parseEntries_append (st : List (Nat × List Nat × EventKind)) :
    ∀ r : List Nat, (∀ e ∈ st, EntryWF e) →
    parseEntries st.length (st.flatMap serEntry ++ r) = some (st, r) := by
  induction st with
  | nil =>
    intro r _
    simp [parseEntries]
  | cons e rest ih =>
    intro r hwf
    simp only [List.flatMap_cons, List.length_cons, List.append_assoc]
    show (parseEntry (serEntry e ++ (rest.flatMap serEntry ++ r))).bind _ = _
    rw [parseEntry_serEntry e _ (hwf e (by simp))]
    rw [Option.some_bind]
    rw [ih r (fun x hx => hwf x (by simp [hx]))]
    rw [Option.some_bind]

theorem parseIdStore_append (st : List (Nat × List Nat × EventKind)) (r : List Nat)
    (hlen : st.length < 2 ^ 64) (hwf : ∀ e ∈ st, EntryWF e) :
    parseIdStore (natLE 8 st.length ++ (st.flatMap serEntry ++ r)) = some (st, r) := by
  unfold parseIdStore
  rw [parseU64_append st.length _ hlen]
  rw [Option.some_bind]
  exact parseEntries_append st r hwf

/-- Round-trip of the header serialisation (spec §8, property 9): on
well-formed headers `deserialize ∘ serialize = id`. -/
theorem deserialize_serialize (h : LocalPacketHeader) (hwf : HeaderWF h) :
    deserializeHeader (serializeHeader h) = some h := by
  obtain ⟨hname, htid, hits, hets, hbl, hstlen, hstwf, -⟩ := hwf
  unfold deserializeHeader serializeHeader serIdStore
  simp only [List.append_assoc]
  rw [parseLenBytes_append h.thread_name _ hname]
  rw [Option.some_bind]
  rw [parseU64_append h.thread_id _ htid]
  rw [Option.some_bind]
  rw [parseU64_append h.initial_timestamp _ hits]
  rw [Option.some_bind]
  rw [parseU64_append h.end_timestamp _ hets]
  rw [Option.some_bind]
  rw [parseIdStore_append h.id_store _ hstlen hstwf]
  rw [Option.some_bind]
  rw [show natLE 8 h.buf_length = natLE 8 h.buf_length ++ [] by simp]
  rw [parseU64_append h.buf_length [] hbl]
  rw [Option.some_bind]

theorem pushSlice_data_full (rb : RingBuf) (bs : List Nat)
    (h : rb.data.length + bs.length ≤ rb.cap) :
    (rb.pushSlice bs).data = rb.data ++ bs := by
  show rb.data ++ bs.take (rb.cap - rb.data.length) = rb.data ++ bs
  rw [List.take_of_length_le (by omega)]

theorem pushSlice_cap (rb : RingBuf) (bs : List Nat) :
    (rb.pushSlice bs).cap = rb.cap := rfl

theorem pushSlice_read (rb : RingBuf) (bs : List Nat) :
    (rb.pushSlice bs).read = rb.read := rfl

theorem readExact_spec (rb : RingBuf) (l r : List Nat) (n : Nat)
    (hd : rb.data = l ++ r) (hl : l.length = n) :
    ∃ rb', rb.readExact n = some (l, rb') ∧ rb'.data = r ∧ rb'.cap = rb.cap := by
  subst hl
  unfold RingBuf.readExact
  rw [if_pos (by rw [hd]; simp)]
  rw [hd, List.take_left, List.drop_left]
  exact ⟨_, rfl, rfl, rfl⟩

theorem framesBytes_count_le (fs : List (LocalPacketHeader × List Nat)) :
    fs.length ≤ (framesBytes fs).length := by
  induction fs with
  | nil => simp [framesBytes]
  | cons f rest ih =>
    simp only [framesBytes, List.flatMap_cons, List.length_append, List.length_cons,
      frameBytes, natBE_length] at *
    omega

/-- Correctness of the drop pass on a ring holding well-formed frames: for
any sufficient fuel it terminates without a panic, having popped whole
frames (oldest first) until the occupancy is at most
`CLEANUP_BOTTOM_THRESHOLD`, appending exactly the popped headers, in FIFO
order, to the skipped list. -/
theorem cleanupLoop_frames (fs : List (LocalPacketHeader × List Nat)) :
    ∀ (fuel : Nat) (rb : RingBuf) (acc : List LocalPacketHeader),
    rb.data = framesBytes fs → (∀ f ∈ fs, FrameWF f) → fs.length ≤ fuel →
    ∃ (k : Nat) (rb2 : RingBuf),
      cleanupLoop fuel rb acc = some (rb2, acc ++ (fs.take k).map Prod.fst) ∧
      rb2.data = framesBytes (fs.drop k) ∧
      rb2.data.length ≤ CLEANUP_BOTTOM_THRESHOLD ∧
      rb2.cap = rb.cap := by
  induction fs with
  | nil =>
    intro fuel rb acc hdata _ _
    have h0 : rb.data.length = 0 := by rw [hdata]; rfl
    refine ⟨0, rb, ?_, by simpa using hdata, by omega, rfl⟩
    cases fuel with
    | zero =>
      unfold cleanupLoop
      rw [if_neg (by omega)]
      simp
    | succ fuel =>
      unfold cleanupLoop
      rw [if_neg (by omega)]
      simp
  | cons f rest ih =>
    intro fuel rb acc hdata hwf hfuel
    obtain ⟨fuel, rfl⟩ : ∃ fuel', fuel = fuel' + 1 :=
      ⟨fuel - 1, by simp at hfuel; omega⟩
    by_cases hover : rb.data.length > CLEANUP_BOTTOM_THRESHOLD
    · obtain ⟨hflen, hfwfh⟩ := hwf f (by simp)
      have hserlen : (serializeHeader f.1).length < 2 ^ 64 :=
        hfwfh.2.2.2.2.2.2.2
      have hshape : rb.data = natBE 8 (serializeHeader f.1).length ++
          (serializeHeader f.1 ++ (f.2 ++ framesBytes rest)) := by
        rw [hdata]
        simp [framesBytes, frameBytes, List.append_assoc]
      obtain ⟨rb1, h1, hd1, hc1⟩ :=
        readExact_spec rb _ _ 8 hshape (natBE_length 8 _)
      obtain ⟨rb2', h2, hd2', hc2'⟩ :=
        readExact_spec rb1 (serializeHeader f.1) (f.2 ++ framesBytes rest)
          (serializeHeader f.1).length hd1 rfl
      have hdata3 : (rb2'.skip f.1.buf_length).data = framesBytes rest := by
        show rb2'.data.drop f.1.buf_length = framesBytes rest
        rw [hd2', ← hflen, List.drop_left]
      have hcap3 : (rb2'.skip f.1.buf_length).cap = rb.cap := by
        show rb2'.cap = rb.cap
        rw [hc2', hc1]
      obtain ⟨k, rb2, hloop, hd2, hl2, hc2⟩ :=
        ih fuel (rb2'.skip f.1.buf_length) (acc ++ [f.1]) hdata3
          (fun x hx => hwf x (by simp [hx])) (by simp at hfuel; omega)
      refine ⟨k + 1, rb2, ?_, by simpa using hd2, hl2, by rw [hc2, hcap3]⟩
      show (if rb.data.length > CLEANUP_BOTTOM_THRESHOLD then
          (rb.readExact 8).bind fun p1 =>
          (p1.2.readExact (beNat p1.1)).bind fun p2 =>
          (deserializeHeader p2.1).bind fun header =>
          cleanupLoop fuel (p2.2.skip header.buf_length) (acc ++ [header])
        else some (rb, acc)) = _
      rw [if_pos hover, h1]
      simp only [Option.some_bind]
      rw [beNat_natBE 8 _ (by rw [pow_256_8]; exact hserlen)]
      rw [h2]
      simp only [Option.some_bind]
      rw [deserialize_serialize f.1 hfwfh]
      simp only [Option.some_bind]
      rw [hloop]
      simp [List.take_succ_cons]
    · refine ⟨0, rb, ?_, by simpa using hdata, by omega, rfl⟩
      show (if rb.data.length > CLEANUP_BOTTOM_THRESHOLD then _ else some (rb, acc)) = _
      rw [if_neg hover]
      simp

theorem int_log_eq (r : ℚ) (e : ℤ) (hr : 0 < r) (h1 : (2 : ℚ) ^ e ≤ r)
    (h2 : r < (2 : ℚ) ^ (e + 1)) : Int.log 2 r = e := by
  have hb : (1 : ℕ) < 2 := by norm_num
  have h1' : ((2 : ℕ) : ℚ) ^ e ≤ r := by exact_mod_cast h1
  have h2' : r < ((2 : ℕ) : ℚ) ^ (e + 1) := by exact_mod_cast h2
  have hle : e ≤ Int.log 2 r := (Int.zpow_le_iff_le_log hb hr).mp h1'
  have hlt : Int.log 2 r < e + 1 := (Int.lt_zpow_iff_log_lt hb hr).mp h2'
  omega

theorem log_nine_tenths : Int.log 2 ((9 : ℚ) / 10) = -1 :=
  int_log_eq _ _ (by norm_num) (by norm_num [zpow_neg]) (by norm_num)

/-- The `f64` literal `0.9` is exactly `8106479329266893 / 2^53`. -/
theorem roundF64_nine_tenths :
    roundF64 (9 / 10) = 8106479329266893 / 9007199254740992 := by
  unfold roundF64
  rw [if_neg (by norm_num)]
  rw [log_nine_tenths]
  norm_num [round_eq]

theorem log_capacity : Int.log 2 ((500000000 : ℚ)) = 28 :=
  int_log_eq _ _ (by norm_num) (by norm_num) (by norm_num)

/-- `GLOBAL_CAPACITY as f64` is exact (the value is below `2^53`). -/
theorem roundF64_capacity : roundF64 ((GLOBAL_CAPACITY : ℚ)) = 500000000 := by
  have hcast : ((GLOBAL_CAPACITY : ℚ)) = 500000000 := by norm_num [GLOBAL_CAPACITY]
  rw [hcast]
  unfold roundF64
  rw [if_neg (by norm_num)]
  rw [log_capacity]
  norm_num [round_eq]

theorem log_prod :
    Int.log 2 ((500000000 : ℚ) * (8106479329266893 / 9007199254740992)) = 28 :=
  int_log_eq _ _ (by norm_num) (by norm_num) (by norm_num)

/-- The `f64` product `500000000.0 * 0.9` rounds to exactly `450000000.0`,
so the `CLEANUP_THRESHOLD` constant is exactly `450000000`. -/
theorem cleanup_threshold_val : CLEANUP_THRESHOLD = 450000000 := by
  unfold CLEANUP_THRESHOLD
  rw [roundF64_capacity, roundF64_nine_tenths]
  unfold roundF64
  rw [if_neg (by norm_num)]
  rw [log_prod]
  norm_num [round_eq]
  rfl

/-- C10: the drop-pass trigger constant `CLEANUP_THRESHOLD`, computed in the
code as `(GLOBAL_CAPACITY as f64 * 0.9) as usize` with
`GLOBAL_CAPACITY = 500_000_000` (here with the binary64 arithmetic modelled
exactly over `ℚ`), is exactly the spec's stated value `450_000_000`. -/
theorem c10_cleanup_threshold :
    GLOBAL_CAPACITY = 500000000 ∧ CLEANUP_THRESHOLD = 450000000 :=
  ⟨rfl, cleanup_threshold_val⟩

/-- C3: if, after the bytes of a frame are appended by `push_buf` to a ring
holding well-formed frames, the occupied length exceeds `CLEANUP_THRESHOLD`,
then when `push_buf` returns the occupied length is at most
`CLEANUP_BOTTOM_THRESHOLD`, the headers of every dropped frame have been
appended to the skipped-headers list in FIFO (oldest-first) order, and the
remaining contents are the undropped suffix of whole frames. -/
theorem c3_drop_pass (g : GlobalStorage) (fs : List (LocalPacketHeader × List Nat))
    (h : LocalPacketHeader) (b : List Nat)
    (hdata : g.inner.data = framesBytes fs)
    (hwf : ∀ f ∈ fs ++ [(h, b)], FrameWF f)
    (hfit : (framesBytes (fs ++ [(h, b)])).length ≤ g.inner.cap)
    (htrig : (framesBytes (fs ++ [(h, b)])).length > CLEANUP_THRESHOLD) :
    ∃ g' k,
      g.push_buf h b = some g' ∧
      g'.inner.data.length ≤ CLEANUP_BOTTOM_THRESHOLD ∧
      g'.skipped_msr_pages_headers =
        g.skipped_msr_pages_headers ++ ((fs ++ [(h, b)]).take k).map Prod.fst ∧
      g'.inner.data = framesBytes ((fs ++ [(h, b)]).drop k) := by
  have hLfull : (framesBytes (fs ++ [(h, b)])).length
      = g.inner.data.length + (8 + (serializeHeader h).length + b.length) := by
    rw [hdata]
    simp [framesBytes, List.flatMap_append, frameBytes, natBE_length]
    omega
  rw [hLfull] at hfit
  have hA : (g.inner.pushSlice (natBE 8 (serializeHeader h).length)).data
      = g.inner.data ++ natBE 8 (serializeHeader h).length :=
    pushSlice_data_full _ _ (by rw [natBE_length]; omega)
  have hB : ((g.inner.pushSlice (natBE 8 (serializeHeader h).length)).pushSlice
        (serializeHeader h)).data
      = (g.inner.data ++ natBE 8 (serializeHeader h).length) ++ serializeHeader h := by
    rw [pushSlice_data_full _ _
      (by rw [hA, pushSlice_cap]; simp [natBE_length]; omega), hA]
  have hC : (((g.inner.pushSlice (natBE 8 (serializeHeader h).length)).pushSlice
        (serializeHeader h)).pushSlice b).data
      = ((g.inner.data ++ natBE 8 (serializeHeader h).length) ++ serializeHeader h) ++ b := by
    rw [pushSlice_data_full _ _
      (by rw [hB, pushSlice_cap, pushSlice_cap]; simp [natBE_length]; omega), hB]
  have hC' : (((g.inner.pushSlice (natBE 8 (serializeHeader h).length)).pushSlice
        (serializeHeader h)).pushSlice b).data = framesBytes (fs ++ [(h, b)]) := by
    rw [hC, hdata]
    simp [framesBytes, List.flatMap_append, frameBytes, List.append_assoc]
  obtain ⟨k, rb2, hloop, hd2, hl2, hc2⟩ :=
    cleanupLoop_frames (fs ++ [(h, b)])
      ((((g.inner.pushSlice (natBE 8 (serializeHeader h).length)).pushSlice
        (serializeHeader h)).pushSlice b).data.length + 1)
      (((g.inner.pushSlice (natBE 8 (serializeHeader h).length)).pushSlice
        (serializeHeader h)).pushSlice b)
      g.skipped_msr_pages_headers hC' hwf
      (by
        have := framesBytes_count_le (fs ++ [(h, b)])
        rw [← hC'] at this
        omega)
  simp only [GlobalStorage.push_buf]
  rw [if_pos (by rw [hC']; exact htrig)]
  rw [hloop]
  simp only [Option.some_bind]
  exact ⟨⟨rb2, _⟩, k, rfl, hl2, rfl, hd2⟩

/-- Witness for C3: pushing a single 460 MB frame into the empty store
trips the 450 MB threshold. -/
theorem c3_drop_pass_witness :
    ∃ g' k,
      gssEmpty.push_buf hdr0 (List.replicate 460000000 0) = some g' ∧
      g'.inner.data.length ≤ CLEANUP_BOTTOM_THRESHOLD ∧
      g'.skipped_msr_pages_headers =
        gssEmpty.skipped_msr_pages_headers ++
          ((([] : List (LocalPacketHeader × List Nat)) ++
            [(hdr0, List.replicate 460000000 0)]).take k).map Prod.fst ∧
      g'.inner.data = framesBytes
        ((([] : List (LocalPacketHeader × List Nat)) ++
          [(hdr0, List.replicate 460000000 0)]).drop k) :=
  c3_drop_pass gssEmpty [] hdr0 (List.replicate 460000000 0) rfl
    (by
      intro f hf
      simp only [List.nil_append, List.mem_singleton] at hf
      subst hf
      refine ⟨?_, by decide⟩
      simp only [List.length_replicate]
      rfl)
    (by
      simp only [framesBytes, List.nil_append, List.flatMap_cons, List.flatMap_nil,
        frameBytes, List.append_nil, List.length_append, natBE_length,
        List.length_replicate]
      norm_num [serializeHeader, serIdStore, natLE_length, hdr0, gssEmpty, GLOBAL_CAPACITY])
    (by
      rw [cleanup_threshold_val]
      simp only [framesBytes, List.nil_append, List.flatMap_cons, List.flatMap_nil,
        frameBytes, List.append_nil, List.length_append, natBE_length,
        List.length_replicate]
      norm_num [serializeHeader, serIdStore, natLE_length, hdr0])

/-- C5: `push_buf(header, body)` on a non-full ring (the frame fits in the
free space and the occupancy stays at or below `CLEANUP_THRESHOLD`) appends
exactly one contiguous trailing frame — the 8-byte big-endian length of the
serialised header, the serialised header bytes, then the body bytes — and
leaves everything previously in the ring, the skipped list, and the ring
geometry unchanged. -/
theorem c5_push_appends (g : GlobalStorage) (h : LocalPacketHeader) (b : List Nat)
    (hfit : g.inner.data.length + (8 + (serializeHeader h).length + b.length)
      ≤ g.inner.cap)
    (hsmall : g.inner.data.length + (8 + (serializeHeader h).length + b.length)
      ≤ CLEANUP_THRESHOLD) :
    ∃ g',
      g.push_buf h b = some g' ∧
      g'.inner.data = g.inner.data ++
        (natBE 8 (serializeHeader h).length ++ serializeHeader h ++ b) ∧
      g'.skipped_msr_pages_headers = g.skipped_msr_pages_headers ∧
      g'.inner.cap = g.inner.cap ∧
      g'.inner.read = g.inner.read := by
  have hA : (g.inner.pushSlice (natBE 8 (serializeHeader h).length)).data
      = g.inner.data ++ natBE 8 (serializeHeader h).length :=
    pushSlice_data_full _ _ (by rw [natBE_length]; omega)
  have hB : ((g.inner.pushSlice (natBE 8 (serializeHeader h).length)).pushSlice
        (serializeHeader h)).data
      = (g.inner.data ++ natBE 8 (serializeHeader h).length) ++ serializeHeader h := by
    rw [pushSlice_data_full _ _
      (by rw [hA, pushSlice_cap]; simp [natBE_length]; omega), hA]
  have hC : (((g.inner.pushSlice (natBE 8 (serializeHeader h).length)).pushSlice
        (serializeHeader h)).pushSlice b).data
      = ((g.inner.data ++ natBE 8 (serializeHeader h).length) ++ serializeHeader h) ++ b := by
    rw [pushSlice_data_full _ _
      (by rw [hB, pushSlice_cap, pushSlice_cap]; simp [natBE_length]; omega), hB]
  simp only [GlobalStorage.push_buf]
  rw [if_neg (by rw [hC]; simp only [List.length_append, natBE_length]; omega)]
  refine ⟨⟨_, _⟩, rfl, ?_, rfl, rfl, rfl⟩
  rw [hC]
  simp [List.append_assoc]

/-- Witness for C5: pushing a small frame into the empty store. -/
theorem c5_push_appends_witness :
    ∃ g',
      gssEmpty.push_buf hdrSmall [9, 9, 9, 9] = some g' ∧
      g'.inner.data = gssEmpty.inner.data ++
        (natBE 8 (serializeHeader hdrSmall).length ++ serializeHeader hdrSmall ++
          [9, 9, 9, 9]) ∧
      g'.skipped_msr_pages_headers = gssEmpty.skipped_msr_pages_headers ∧
      g'.inner.cap = gssEmpty.inner.cap ∧
      g'.inner.read = gssEmpty.inner.read :=
  c5_push_appends gssEmpty hdrSmall [9, 9, 9, 9] (by decide)
    (by rw [cleanup_threshold_val]; decide)

/-- Unfolding equation for `try_take_buf`. -/
theorem try_take_buf_eq (g : GlobalStorage) (te : Bool) :
    g.try_take_buf te =
      if g.inner.data.length > (if te then 0 else FLUSH_THRESHOLD) then
        (some g.inner.asSlices, { g with inner := g.inner.clear })
      else (none, g) := rfl

/-- C4: `try_take_buf(false)` returns `None` exactly when the occupied
length is at most `FLUSH_THRESHOLD`; `try_take_buf(true)` returns the full
contents exactly when the occupied length is positive; and in every `Some`
case the returned pair is the snapshot of the ring's contiguous-pair view
(whose two slices concatenate to the whole contents) and the ring is reset
to empty. -/
theorem c4_take_buf (g : GlobalStorage) :
    ((g.try_take_buf false).1 = none ↔ g.inner.data.length ≤ FLUSH_THRESHOLD) ∧
    ((g.try_take_buf true).1 = some g.inner.asSlices ↔ 0 < g.inner.data.length) ∧
    g.inner.asSlices.1 ++ g.inner.asSlices.2 = g.inner.data ∧
    (∀ te p, (g.try_take_buf te).1 = some p →
      p = g.inner.asSlices ∧ ((g.try_take_buf te).2).inner.data = []) := by
  refine ⟨?_, ?_, List.take_append_drop _ _, ?_⟩
  · rw [try_take_buf_eq]
    by_cases hgt : g.inner.data.length > FLUSH_THRESHOLD
    · rw [if_pos (by simpa using hgt)]
      simp
      omega
    · rw [if_neg (by simpa using hgt)]
      simp
      omega
  · rw [try_take_buf_eq]
    by_cases hgt : 0 < g.inner.data.length
    · rw [if_pos (by simpa using hgt)]
      simpa using hgt
    · rw [if_neg (by simpa using hgt)]
      simpa using hgt
  · intro te p hp
    rw [try_take_buf_eq] at hp ⊢
    by_cases hgt : g.inner.data.length > (if te then 0 else FLUSH_THRESHOLD)
    · rw [if_pos hgt] at hp ⊢
      simp only [Option.some.injEq] at hp
      exact ⟨hp.symm, rfl⟩
    · rw [if_neg hgt] at hp
      simp at hp

/-- Witness for C4 at a concrete three-byte store. -/
theorem c4_take_buf_witness :
    ((gssSmall.try_take_buf false).1 = none ↔
      gssSmall.inner.data.length ≤ FLUSH_THRESHOLD) ∧
    ((gssSmall.try_take_buf true).1 = some gssSmall.inner.asSlices ↔
      0 < gssSmall.inner.data.length) ∧
    gssSmall.inner.asSlices.1 ++ gssSmall.inner.asSlices.2 = gssSmall.inner.data ∧
    (∀ te p, (gssSmall.try_take_buf te).1 = some p →
      p = gssSmall.inner.asSlices ∧ ((gssSmall.try_take_buf te).2).inner.data = []) :=
  c4_take_buf gssSmall

theorem senderFold (fps : List LocalPacketHeader) : ∀ out : List Nat,
    fps.foldl (fun acc header =>
      let hser := serializeHeader header
      let acc := acc ++ [0x02]
      let acc := acc ++ natBE 8 hser.length
      acc ++ hser) out
      = out ++ fps.flatMap fun hd =>
          0x02 :: (natBE 8 (serializeHeader hd).length ++ serializeHeader hd) := by
  induction fps with
  | nil => intro out; simp
  | cons hd rest ih =>
    intro out
    simp only [List.foldl_cons, List.flatMap_cons]
    rw [ih]
    simp [List.append_assoc]

/-- C7: in each sender-loop iteration, when a slice pair `(a, b)` is taken
from the staging store the bytes written to the socket are the single byte
`0x01`, the 8-byte big-endian value `|a| + |b|`, all of `a`, then all of
`b`, followed, for each failed-page header, by the single byte `0x02`, the
8-byte big-endian serialised-header length, and the serialised header — and
when no slices are taken only the failed-page records are written. -/
theorem c7_sender_wire_format (a b : List Nat) (fps : List LocalPacketHeader) :
    senderIter (some (a, b)) fps =
      0x01 :: (natBE 8 (a.length + b.length) ++ a ++ b ++
        (fps.flatMap fun hd =>
          0x02 :: (natBE 8 (serializeHeader hd).length ++ serializeHeader hd))) ∧
    senderIter none fps =
      (fps.flatMap fun hd =>
        0x02 :: (natBE 8 (serializeHeader hd).length ++ serializeHeader hd)) := by
  constructor <;>
  · simp only [senderIter]
    cases fps with
    | nil => simp
    | cons hd rest =>
      rw [if_pos (by simp)]
      rw [senderFold]
      simp [List.append_assoc]

/-- C8: the receiver's event constructors produce exactly the shapes the
spec gives — a Range event has the given `name`, `cat = "Range"`,
`ph = "X"`, `ts = timestamp_ns / 1000` and `dur = duration_ns / 1000` (as
floating point, modelled exactly), and `tid` equal to the event id (not the
thread id, which the constructor is never given); a Point event has the
given `name`, `cat = "Point"`, `ph = "i"`, `ts = timestamp_ns / 1000`, and
`tid` equal to the event id. -/
theorem c8_event_shapes (name : String) (event_id : Nat) (timestamp duration : Nat) :
    (RangeEvent.new name event_id timestamp duration).name = name ∧
    (RangeEvent.new name event_id timestamp duration).cat = "Range" ∧
    (RangeEvent.new name event_id timestamp duration).ph = "X" ∧
    (RangeEvent.new name event_id timestamp duration).ts = (timestamp : ℚ) / 1000 ∧
    (RangeEvent.new name event_id timestamp duration).dur = (duration : ℚ) / 1000 ∧
    (RangeEvent.new name event_id timestamp duration).tid = event_id ∧
    (PointEvent.new name event_id timestamp).name = name ∧
    (PointEvent.new name event_id timestamp).cat = "Point" ∧
    (PointEvent.new name event_id timestamp).ph = "i" ∧
    (PointEvent.new name event_id timestamp).ts = (timestamp : ℚ) / 1000 ∧
    (PointEvent.new name event_id timestamp).tid = event_id :=
  ⟨rfl, rfl, rfl, rfl, rfl, rfl, rfl, rfl, rfl, rfl, rfl⟩
